import Mathlib

/-!
# Verification of the `RangeSet` interval-set library

Shallow embedding of `src/lib.rs`: a `RangeSet` stores an ordered sequence of
half-open intervals `[start, end)` over `u64`.  The algorithms only ever
compare bounds and take maxima — no arithmetic is performed on the bounds —
so the embedding uses `Nat` for the `u64` domain (exact for every `u64`
value) and `Nat × Nat` for `std::ops::Range<u64>` (`.1` = `start`,
`.2` = `end`).  The `TinyVec` backing store is modelled by the list of its
elements; the storage representation (inline vs. heap) is modelled
separately for `shrink_to_fit`.

Each definition mirrors the corresponding Rust item; the index-based
in-place loops become structural recursions over the yet-unscanned suffix
of the list (everything before the loop index is never touched again by the
Rust loops, so this is a faithful translation).
-/

namespace RangeSet

/-- `std::ops::Range<u64>`: `.1` is `start`, `.2` is `end`. -/
abbrev RustRange := Nat × Nat

/-- `RangeSet::len`: `self.0.len()` — the number of stored intervals. -/
def len (s : List RustRange) : Nat :=
  s.length

/-- `RangeSet::empty`: `self.0.is_empty()`. -/
def empty (s : List RustRange) : Bool :=
  s.isEmpty

/-- `RangeSet::contains`: scan the stored intervals in order; return `false`
at the first interval whose `start` exceeds `num`, `true` at the first
interval with `start <= num && num < end` (Rust `el.contains(&num)`). -/
def contains (s : List RustRange) (num : Nat) : Bool :=
  match s with
  | [] => false
  | el :: rest =>
    if el.1 > num then false
    else if el.1 ≤ num ∧ num < el.2 then true
    else contains rest num

/-- The inner `while` loop of `RangeSet::insert` after `current.end` was set
to `range.end`: while a following interval starts at or before the current
end (`curr.end >= next.start`), absorb it (`end = next.end.max(curr.end)`,
remove it); stop at the first gap. `c` is the interval at the loop index,
`l` the intervals after it. -/
def coalesce (c : RustRange) (l : List RustRange) : List RustRange :=
  match l with
  | [] => [c]
  | next :: t =>
    if c.2 ≥ next.1 then coalesce (c.1, max next.2 c.2) t
    else c :: next :: t

/-- The scan loop of `RangeSet::insert`, acting on the suffix of the stored
list from the current index on (`range` is the argument, already known to
be non-empty). -/
def insertGo (range : RustRange) (s : List RustRange) : List RustRange :=
  match s with
  | [] => [range]
  | current :: rest =>
    if current.1 > range.2 then range :: current :: rest
    else if current.1 > range.1 then (range.1, current.2) :: rest
    else if range.2 ≤ current.2 then current :: rest
    else if range.1 ≤ current.2 then coalesce (current.1, range.2) rest
    else current :: insertGo range rest

/-- `RangeSet::insert`: no-op on an empty Rust range (`start >= end`),
otherwise the scan loop. -/
def insert (s : List RustRange) (range : RustRange) : List RustRange :=
  if range.1 < range.2 then insertGo range s else s

/-- The inner `while` loop of `RangeSet::insert_num` — the Rust source
duplicates the loop body of `insert` verbatim inside `insert_num`. -/
def coalesceNum (c : RustRange) (l : List RustRange) : List RustRange :=
  match l with
  | [] => [c]
  | next :: t =>
    if c.2 ≥ next.1 then coalesceNum (c.1, max next.2 c.2) t
    else c :: next :: t

/-- The scan loop of `RangeSet::insert_num` (duplicated code path of the
`insert` scan loop, kept as its own definition as in the source). -/
def insertNumGo (range : RustRange) (s : List RustRange) : List RustRange :=
  match s with
  | [] => [range]
  | current :: rest =>
    if current.1 > range.2 then range :: current :: rest
    else if current.1 > range.1 then (range.1, current.2) :: rest
    else if range.2 ≤ current.2 then current :: rest
    else if range.1 ≤ current.2 then coalesceNum (current.1, range.2) rest
    else current :: insertNumGo range rest

/-- `RangeSet::insert_num`: builds `Range { start, end }` and runs the same
(textually duplicated) algorithm as `insert`. -/
def insert_num (s : List RustRange) (start stop : Nat) : List RustRange :=
  if start < stop then insertNumGo (start, stop) s else s

/-- The scan loop of `RangeSet::remove` (argument `range` already known to
be non-empty; the Rust loop guard `range.start != range.end` is then always
true since `range` is never mutated).  At each interval `current`:
return if `range.end <= current.start`; skip if `range.start >=
current.end`; otherwise replace `current` by the non-empty ones among
`left = current.start..range.start` and `right = range.end..current.end`
and continue after them. -/
def removeGo (range : RustRange) (s : List RustRange) : List RustRange :=
  match s with
  | [] => []
  | current :: rest =>
    if range.2 ≤ current.1 then current :: rest
    else if range.1 ≥ current.2 then current :: removeGo range rest
    else
      -- `left.is_empty()` is `range.start ≤ current.start`,
      -- `right.is_empty()` is `current.end ≤ range.end`
      if range.1 ≤ current.1 ∧ current.2 ≤ range.2 then removeGo range rest
      else if range.1 ≤ current.1 then (range.2, current.2) :: removeGo range rest
      else if current.2 ≤ range.2 then (current.1, range.1) :: removeGo range rest
      else (current.1, range.1) :: (range.2, current.2) :: removeGo range rest

/-- `RangeSet::remove`: no-op on an empty Rust range, else the scan loop. -/
def remove (s : List RustRange) (range : RustRange) : List RustRange :=
  if range.1 < range.2 then removeGo range s else s

/-- `INLINE_CAPACITY` from the source. -/
def INLINE_CAPACITY : Nat := 2

/-- The `TinyVec` backing store with its representation made explicit:
the stored elements, whether storage is currently the inline buffer, and
the current capacity. -/
structure Storage where
  data : List RustRange
  isInline : Bool
  cap : Nat

/-- Modelled from the spec: `RangeSet::shrink_to_fit` delegates to
`TinyVec::shrink_to_fit` of the `tinyvec` dependency, whose code is not
part of this repository.  Per the spec it "releases any heap capacity
beyond current length; if current length fits the inline capacity,
converts storage back to the inline form" — the stored elements are
untouched. -/
def shrink_to_fit (v : Storage) : Storage :=
  if v.isInline then v
  else if v.data.length ≤ INLINE_CAPACITY then ⟨v.data, true, INLINE_CAPACITY⟩
  else ⟨v.data, false, v.data.length⟩

/-- The operations a client may perform on a `RangeSet` after construction. -/
inductive Op where
  | ins (range : RustRange)
  | insNum (start stop : Nat)
  | rem (range : RustRange)

/-- Apply one operation to the stored interval list. -/
def applyOp (s : List RustRange) : Op → List RustRange
  | .ins range => insert s range
  | .insNum start stop => insert_num s start stop
  | .rem range => remove s range

/-- Run a sequence of operations starting from the freshly constructed
(empty) `RangeSet` (`RangeSet::new`). -/
def run (ops : List Op) : List RustRange :=
  ops.foldl applyOp []

/-- A point is covered by the stored intervals: some stored interval
satisfies `start ≤ p < end`. -/
abbrev memP (s : List RustRange) (p : Nat) : Prop :=
  ∃ x ∈ s, x.1 ≤ p ∧ p < x.2

/-- The spec's stored-sequence invariants 1, 2 and 4: consecutive intervals
satisfy `end ≤ next.start`, and no stored interval is empty. -/
def Valid (s : List RustRange) : Prop :=
  List.Chain' (fun a b => a.2 ≤ b.1) s ∧ ∀ x ∈ s, x.1 < x.2

/-- The strict form of the invariant: consecutive intervals are separated
by a non-empty gap (`end < next.start`), and no stored interval is empty. -/
def StrictValid (s : List RustRange) : Prop :=
  List.Chain' (fun a b => a.2 < b.1) s ∧ ∀ x ∈ s, x.1 < x.2

/-! ## Basic facts about the invariants and `contains` -/

theorem valid_tail {a : RustRange} {l : List RustRange} (h : Valid (a :: l)) :
    Valid l :=
  ⟨h.1.tail, fun x hx => h.2 x (List.mem_cons_of_mem _ hx)⟩

theorem strictValid_tail {a : RustRange} {l : List RustRange}
    (h : StrictValid (a :: l)) : StrictValid l :=
  ⟨h.1.tail, fun x hx => h.2 x (List.mem_cons_of_mem _ hx)⟩

theorem strictValid_valid {s : List RustRange} (h : StrictValid s) : Valid s :=
  ⟨h.1.imp (fun _ _ hab => Nat.le_of_lt hab), h.2⟩

theorem valid_head_le {a : RustRange} {l : List RustRange} (h : Valid (a :: l)) :
    ∀ x ∈ l, a.2 ≤ x.1 := by
  induction l generalizing a with
  | nil => simp
  | cons b t ih =>
    intro x hx
    have hab : a.2 ≤ b.1 := (List.chain'_cons.mp h.1).1
    rcases List.mem_cons.mp hx with rfl | hx
    · exact hab
    · have hb : b.1 < b.2 := h.2 b (by simp)
      have := ih (valid_tail h) x hx
      omega

theorem strictValid_head_lt {a : RustRange} {l : List RustRange}
    (h : StrictValid (a :: l)) : ∀ x ∈ l, a.2 < x.1 := by
  induction l generalizing a with
  | nil => simp
  | cons b t ih =>
    intro x hx
    have hab : a.2 < b.1 := (List.chain'_cons.mp h.1).1
    rcases List.mem_cons.mp hx with rfl | hx
    · exact hab
    · have hb : b.1 < b.2 := h.2 b (by simp)
      have := ih (strictValid_tail h) x hx
      omega

theorem valid_sorted {s : List RustRange} (h : Valid s) :
    List.Pairwise (fun a b : RustRange => a.1 ≤ b.1) s := by
  induction s with
  | nil => simp
  | cons a l ih =>
    refine List.pairwise_cons.mpr ⟨fun x hx => ?_, ih (valid_tail h)⟩
    have ha : a.1 < a.2 := h.2 a (by simp)
    have := valid_head_le h x hx
    omega

theorem memP_cons {a : RustRange} {l : List RustRange} {p : Nat} :
    memP (a :: l) p ↔ (a.1 ≤ p ∧ p < a.2) ∨ memP l p := by
  simp [memP]

/-- Scanning with the early exit agrees with full membership on any list
sorted ascending by `start`. -/
theorem contains_iff_memP {s : List RustRange} {p : Nat}
    (hs : List.Pairwise (fun a b : RustRange => a.1 ≤ b.1) s) :
    contains s p = true ↔ memP s p := by
  induction s with
  | nil => simp [contains, memP]
  | cons el rest ih =>
    rcases List.pairwise_cons.mp hs with ⟨hhead, hrest⟩
    by_cases h1 : el.1 > p
    · rw [contains, if_pos h1]
      constructor
      · intro h
        simp at h
      · rintro ⟨x, hmem, hx1, hx2⟩
        rcases List.mem_cons.mp hmem with rfl | hx
        · omega
        · have := hhead x hx
          omega
    · by_cases h2 : el.1 ≤ p ∧ p < el.2
      · rw [contains, if_neg h1, if_pos h2]
        simp only [true_iff, memP_cons]
        exact Or.inl h2
      · rw [contains, if_neg h1, if_neg h2, ih hrest, memP_cons]
        constructor
        · exact Or.inr
        · rintro (hel | hm)
          · exact absurd hel h2
          · exact hm

theorem contains_iff_memP_of_valid {s : List RustRange} {p : Nat}
    (hs : Valid s) : contains s p = true ↔ memP s p :=
  contains_iff_memP (valid_sorted hs)

theorem chain'_cons_of_forall {R : RustRange → RustRange → Prop} {a : RustRange}
    {l : List RustRange} (h : ∀ y ∈ l, R a y) (hl : List.Chain' R l) :
    List.Chain' R (a :: l) :=
  List.chain'_cons'.mpr ⟨fun y hy => h y (List.mem_of_mem_head? hy), hl⟩

/-! ## The removal scan -/

/-- Every interval produced by the removal scan is contained in one of the
input intervals. -/
theorem removeGo_subset {r : RustRange} {s : List RustRange} :
    ∀ x ∈ removeGo r s, ∃ y ∈ s, y.1 ≤ x.1 ∧ x.2 ≤ y.2 := by
  induction s with
  | nil => simp [removeGo]
  | cons current rest ih =>
    intro x hx
    rw [removeGo] at hx
    split_ifs at hx with h1 h2 h3 h4 h5
    · exact ⟨x, hx, le_refl _, le_refl _⟩
    · rcases List.mem_cons.mp hx with rfl | hx
      · exact ⟨x, by simp, le_refl _, le_refl _⟩
      · obtain ⟨y, hy, hle⟩ := ih x hx
        exact ⟨y, List.mem_cons_of_mem _ hy, hle⟩
    · obtain ⟨y, hy, hle⟩ := ih x hx
      exact ⟨y, List.mem_cons_of_mem _ hy, hle⟩
    · rcases List.mem_cons.mp hx with rfl | hx
      · exact ⟨current, by simp, by omega, by omega⟩
      · obtain ⟨y, hy, hle⟩ := ih x hx
        exact ⟨y, List.mem_cons_of_mem _ hy, hle⟩
    · rcases List.mem_cons.mp hx with rfl | hx
      · exact ⟨current, by simp, by omega, by omega⟩
      · obtain ⟨y, hy, hle⟩ := ih x hx
        exact ⟨y, List.mem_cons_of_mem _ hy, hle⟩
    · rcases List.mem_cons.mp hx with rfl | hx
      · exact ⟨current, by simp, by omega, by omega⟩
      · rcases List.mem_cons.mp hx with rfl | hx
        · exact ⟨current, by simp, by omega, by omega⟩
        · obtain ⟨y, hy, hle⟩ := ih x hx
          exact ⟨y, List.mem_cons_of_mem _ hy, hle⟩

/-- The removal scan preserves the (non-strict) stored-sequence invariants. -/
theorem removeGo_valid {r : RustRange} {s : List RustRange} (hr : r.1 < r.2)
    (hs : Valid s) : Valid (removeGo r s) := by
  induction s with
  | nil => simpa [removeGo] using hs
  | cons current rest ih =>
    have hcur : current.1 < current.2 := hs.2 current (by simp)
    have hhead := valid_head_le hs
    have hrest := valid_tail hs
    have hafter : ∀ y ∈ removeGo r rest, current.2 ≤ y.1 := by
      intro y hy
      obtain ⟨z, hz, hz1, _⟩ := removeGo_subset y hy
      have := hhead z hz
      omega
    rw [removeGo]
    split_ifs with h1 h2 h3 h4 h5
    · exact hs
    · refine ⟨chain'_cons_of_forall hafter (ih hrest).1, ?_⟩
      intro x hx
      rcases List.mem_cons.mp hx with rfl | hx
      · exact hcur
      · exact (ih hrest).2 x hx
    · exact ih hrest
    · refine ⟨chain'_cons_of_forall (fun y hy => hafter y hy) (ih hrest).1, ?_⟩
      intro x hx
      rcases List.mem_cons.mp hx with rfl | hx
      · dsimp only
        omega
      · exact (ih hrest).2 x hx
    · refine ⟨chain'_cons_of_forall (fun y hy => ?_) (ih hrest).1, ?_⟩
      · have := hafter y hy
        dsimp only
        omega
      intro x hx
      rcases List.mem_cons.mp hx with rfl | hx
      · dsimp only
        omega
      · exact (ih hrest).2 x hx
    · refine ⟨chain'_cons_of_forall (fun y hy => ?_)
        (chain'_cons_of_forall (fun y hy => hafter y hy) (ih hrest).1), ?_⟩
      · rcases List.mem_cons.mp hy with rfl | hy
        · dsimp only
          omega
        · have := hafter y hy
          dsimp only
          omega
      · intro x hx
        rcases List.mem_cons.mp hx with rfl | hx
        · dsimp only
          omega
        · rcases List.mem_cons.mp hx with rfl | hx
          · dsimp only
            omega
          · exact (ih hrest).2 x hx

/-- The removal scan preserves the strict stored-sequence invariants. -/
theorem removeGo_strictValid {r : RustRange} {s : List RustRange}
    (hr : r.1 < r.2) (hs : StrictValid s) : StrictValid (removeGo r s) := by
  induction s with
  | nil => simpa [removeGo] using hs
  | cons current rest ih =>
    have hcur : current.1 < current.2 := hs.2 current (by simp)
    have hhead := strictValid_head_lt hs
    have hrest := strictValid_tail hs
    have hafter : ∀ y ∈ removeGo r rest, current.2 < y.1 := by
      intro y hy
      obtain ⟨z, hz, hz1, _⟩ := removeGo_subset y hy
      have := hhead z hz
      omega
    rw [removeGo]
    split_ifs with h1 h2 h3 h4 h5
    · exact hs
    · refine ⟨chain'_cons_of_forall hafter (ih hrest).1, ?_⟩
      intro x hx
      rcases List.mem_cons.mp hx with rfl | hx
      · exact hcur
      · exact (ih hrest).2 x hx
    · exact ih hrest
    · refine ⟨chain'_cons_of_forall (fun y hy => hafter y hy) (ih hrest).1, ?_⟩
      intro x hx
      rcases List.mem_cons.mp hx with rfl | hx
      · dsimp only
        omega
      · exact (ih hrest).2 x hx
    · refine ⟨chain'_cons_of_forall (fun y hy => ?_) (ih hrest).1, ?_⟩
      · have := hafter y hy
        dsimp only
        omega
      intro x hx
      rcases List.mem_cons.mp hx with rfl | hx
      · dsimp only
        omega
      · exact (ih hrest).2 x hx
    · refine ⟨chain'_cons_of_forall (fun y hy => ?_)
        (chain'_cons_of_forall (fun y hy => hafter y hy) (ih hrest).1), ?_⟩
      · rcases List.mem_cons.mp hy with rfl | hy
        · dsimp only
          omega
        · have := hafter y hy
          dsimp only
          omega
      · intro x hx
        rcases List.mem_cons.mp hx with rfl | hx
        · dsimp only
          omega
        · rcases List.mem_cons.mp hx with rfl | hx
          · dsimp only
            omega
          · exact (ih hrest).2 x hx

/-- Point semantics of the removal scan on a valid sequence: exactly the
points of `[range.start, range.end)` are removed from the coverage. -/
theorem removeGo_memP {r : RustRange} {s : List RustRange} (hr : r.1 < r.2)
    (hs : Valid s) (p : Nat) :
    memP (removeGo r s) p ↔ memP s p ∧ ¬(r.1 ≤ p ∧ p < r.2) := by
  induction s with
  | nil => simp [removeGo]
  | cons current rest ih =>
    have hcur : current.1 < current.2 := hs.2 current (by simp)
    have hhead := valid_head_le hs
    have hrest := valid_tail hs
    rw [removeGo]
    split_ifs with h1 h2 h3 h4 h5
    · constructor
      · intro hm
        refine ⟨hm, ?_⟩
        obtain ⟨x, hx, hx1, hx2⟩ := hm
        rcases List.mem_cons.mp hx with rfl | hx
        · omega
        · have := hhead x hx
          omega
      · exact fun h => h.1
    · rw [memP_cons, memP_cons, ih hrest]
      constructor
      · rintro (hc | ⟨hm, hn⟩)
        · exact ⟨Or.inl hc, by omega⟩
        · exact ⟨Or.inr hm, hn⟩
      · rintro ⟨hc | hm, hn⟩
        · exact Or.inl hc
        · exact Or.inr ⟨hm, hn⟩
    · rw [ih hrest, memP_cons]
      obtain ⟨h3a, h3b⟩ := h3
      constructor
      · rintro ⟨hm, hn⟩
        exact ⟨Or.inr hm, hn⟩
      · rintro ⟨hc | hm, hn⟩
        · exact absurd (by omega : r.1 ≤ p ∧ p < r.2) hn
        · exact ⟨hm, hn⟩
    · rw [memP_cons, memP_cons, ih hrest]
      constructor
      · rintro (hx | ⟨hm, hn⟩)
        · dsimp only at hx
          exact ⟨Or.inl (by omega), by omega⟩
        · exact ⟨Or.inr hm, hn⟩
      · rintro ⟨hc | hm, hn⟩
        · exact Or.inl (by dsimp only; omega)
        · exact Or.inr ⟨hm, hn⟩
    · rw [memP_cons, memP_cons, ih hrest]
      constructor
      · rintro (hx | ⟨hm, hn⟩)
        · dsimp only at hx
          exact ⟨Or.inl (by omega), by omega⟩
        · exact ⟨Or.inr hm, hn⟩
      · rintro ⟨hc | hm, hn⟩
        · exact Or.inl (by dsimp only; omega)
        · exact Or.inr ⟨hm, hn⟩
    · rw [memP_cons, memP_cons, memP_cons, ih hrest]
      constructor
      · rintro (hx | hx | ⟨hm, hn⟩)
        · dsimp only at hx
          exact ⟨Or.inl (by omega), by omega⟩
        · dsimp only at hx
          exact ⟨Or.inl (by omega), by omega⟩
        · exact ⟨Or.inr hm, hn⟩
      · rintro ⟨hc | hm, hn⟩
        · by_cases hp : p < r.1
          · exact Or.inl (by dsimp only; omega)
          · exact Or.inr (Or.inl (by dsimp only; omega))
        · exact Or.inr (Or.inr ⟨hm, hn⟩)

/-! ## The insertion scan -/

/-- Every interval produced by the coalescing loop starts at or after any
common lower bound of the current interval and the remaining intervals. -/
theorem coalesce_start_lb {k : Nat} {c : RustRange} {l : List RustRange}
    (hc : k ≤ c.1) (hl : ∀ y ∈ l, k ≤ y.1) : ∀ x ∈ coalesce c l, k ≤ x.1 := by
  induction l generalizing c with
  | nil =>
    intro x hx
    rw [coalesce] at hx
    simp only [List.mem_singleton] at hx
    subst hx
    exact hc
  | cons next t ih =>
    intro x hx
    rw [coalesce] at hx
    split_ifs at hx with h
    · exact ih (show k ≤ (c.1, max next.2 c.2).1 from hc)
        (fun y hy => hl y (List.mem_cons_of_mem _ hy)) x hx
    · rcases List.mem_cons.mp hx with rfl | hx
      · exact hc
      · exact hl x hx

/-- Every interval produced by the insertion scan starts at or after any
common lower bound of the new interval and the scanned intervals. -/
theorem insertGo_start_lb {k : Nat} {r : RustRange} {s : List RustRange}
    (hr : k ≤ r.1) (hs : ∀ y ∈ s, k ≤ y.1) : ∀ x ∈ insertGo r s, k ≤ x.1 := by
  induction s with
  | nil =>
    intro x hx
    rw [insertGo] at hx
    simp only [List.mem_singleton] at hx
    subst hx
    exact hr
  | cons current rest ih =>
    intro x hx
    rw [insertGo] at hx
    split_ifs at hx with h1 h2 h3 h4
    · rcases List.mem_cons.mp hx with rfl | hx
      · exact hr
      · exact hs x hx
    · rcases List.mem_cons.mp hx with rfl | hx
      · exact hr
      · exact hs x (List.mem_cons_of_mem _ hx)
    · exact hs x hx
    · exact coalesce_start_lb (show k ≤ (current.1, r.2).1 from hs current (by simp))
        (fun y hy => hs y (List.mem_cons_of_mem _ hy)) x hx
    · rcases List.mem_cons.mp hx with rfl | hx
      · exact hs x (by simp)
      · exact ih (fun y hy => hs y (List.mem_cons_of_mem _ hy)) x hx

/-- The coalescing loop preserves the (non-strict) invariants. -/
theorem coalesce_valid {c : RustRange} {l : List RustRange} (hc : c.1 < c.2)
    (hl : Valid l) : Valid (coalesce c l) := by
  induction l generalizing c with
  | nil =>
    rw [coalesce]
    refine ⟨by simp, ?_⟩
    intro x hx
    simp only [List.mem_singleton] at hx
    subst hx
    exact hc
  | cons next t ih =>
    rw [coalesce]
    split_ifs with h
    · have hn : next.1 < next.2 := hl.2 next (by simp)
      exact ih (by dsimp only; omega) (valid_tail hl)
    · refine ⟨List.chain'_cons.mpr ⟨by omega, hl.1⟩, ?_⟩
      intro x hx
      rcases List.mem_cons.mp hx with rfl | hx
      · exact hc
      · exact hl.2 x hx

/-- The coalescing loop preserves the strict invariants. -/
theorem coalesce_strictValid {c : RustRange} {l : List RustRange}
    (hc : c.1 < c.2) (hl : StrictValid l) : StrictValid (coalesce c l) := by
  induction l generalizing c with
  | nil =>
    rw [coalesce]
    refine ⟨by simp, ?_⟩
    intro x hx
    simp only [List.mem_singleton] at hx
    subst hx
    exact hc
  | cons next t ih =>
    rw [coalesce]
    split_ifs with h
    · have hn : next.1 < next.2 := hl.2 next (by simp)
      exact ih (by dsimp only; omega) (strictValid_tail hl)
    · refine ⟨List.chain'_cons.mpr ⟨by omega, hl.1⟩, ?_⟩
      intro x hx
      rcases List.mem_cons.mp hx with rfl | hx
      · exact hc
      · exact hl.2 x hx

/-- The insertion scan preserves the (non-strict) invariants. -/
theorem insertGo_valid {r : RustRange} {s : List RustRange} (hr : r.1 < r.2)
    (hs : Valid s) : Valid (insertGo r s) := by
  induction s with
  | nil =>
    rw [insertGo]
    refine ⟨by simp, ?_⟩
    intro x hx
    simp only [List.mem_singleton] at hx
    subst hx
    exact hr
  | cons current rest ih =>
    have hcur : current.1 < current.2 := hs.2 current (by simp)
    have hhead := valid_head_le hs
    have hrest := valid_tail hs
    rw [insertGo]
    split_ifs with h1 h2 h3 h4
    · refine ⟨List.chain'_cons.mpr ⟨by omega, hs.1⟩, ?_⟩
      intro x hx
      rcases List.mem_cons.mp hx with rfl | hx
      · exact hr
      · exact hs.2 x hx
    · refine ⟨chain'_cons_of_forall (fun y hy => by
        have := hhead y hy
        dsimp only
        omega) hrest.1, ?_⟩
      intro x hx
      rcases List.mem_cons.mp hx with rfl | hx
      · dsimp only
        omega
      · exact hrest.2 x hx
    · exact hs
    · exact coalesce_valid (by dsimp only; omega) hrest
    · refine ⟨chain'_cons_of_forall (fun y hy =>
        insertGo_start_lb (show current.2 ≤ r.1 by omega)
          (fun z hz => show current.2 ≤ z.1 by have := hhead z hz; omega) y hy)
        (ih hrest).1, ?_⟩
      intro x hx
      rcases List.mem_cons.mp hx with rfl | hx
      · exact hcur
      · exact (ih hrest).2 x hx

/-- The insertion scan preserves the strict invariants. -/
theorem insertGo_strictValid {r : RustRange} {s : List RustRange}
    (hr : r.1 < r.2) (hs : StrictValid s) : StrictValid (insertGo r s) := by
  induction s with
  | nil =>
    rw [insertGo]
    refine ⟨by simp, ?_⟩
    intro x hx
    simp only [List.mem_singleton] at hx
    subst hx
    exact hr
  | cons current rest ih =>
    have hcur : current.1 < current.2 := hs.2 current (by simp)
    have hhead := strictValid_head_lt hs
    have hrest := strictValid_tail hs
    rw [insertGo]
    split_ifs with h1 h2 h3 h4
    · refine ⟨List.chain'_cons.mpr ⟨by omega, hs.1⟩, ?_⟩
      intro x hx
      rcases List.mem_cons.mp hx with rfl | hx
      · exact hr
      · exact hs.2 x hx
    · refine ⟨chain'_cons_of_forall (fun y hy => by
        have := hhead y hy
        dsimp only
        omega) hrest.1, ?_⟩
      intro x hx
      rcases List.mem_cons.mp hx with rfl | hx
      · dsimp only
        omega
      · exact hrest.2 x hx
    · exact hs
    · exact coalesce_strictValid (by dsimp only; omega) hrest
    · refine ⟨chain'_cons_of_forall (fun y hy => Nat.lt_of_succ_le
        (insertGo_start_lb (show current.2 + 1 ≤ r.1 by omega)
          (fun z hz => show current.2 + 1 ≤ z.1 by have := hhead z hz; omega) y hy))
        (ih hrest).1, ?_⟩
      intro x hx
      rcases List.mem_cons.mp hx with rfl | hx
      · exact hcur
      · exact (ih hrest).2 x hx

/-- The coalescing loop never drops coverage, provided the remaining
intervals do not start before the current interval does. -/
theorem coalesce_memP {c : RustRange} {l : List RustRange} {p : Nat}
    (hl : ∀ y ∈ l, c.1 ≤ y.1) (h : memP (c :: l) p) : memP (coalesce c l) p := by
  induction l generalizing c with
  | nil =>
    rw [coalesce]
    exact h
  | cons next t ih =>
    rw [coalesce]
    split_ifs with hcond
    · apply ih
      · intro y hy
        have := hl y (List.mem_cons_of_mem _ hy)
        dsimp only
        omega
      · rcases memP_cons.mp h with hc | hrest
        · exact memP_cons.mpr (Or.inl (by dsimp only; omega))
        · rcases memP_cons.mp hrest with hn | ht
          · have := hl next (by simp)
            exact memP_cons.mpr (Or.inl (by dsimp only; omega))
          · exact memP_cons.mpr (Or.inr ht)
    · exact h

/-- The insertion scan never drops coverage of a valid sequence. -/
theorem insertGo_memP_mono {r : RustRange} {s : List RustRange} {p : Nat}
    (hs : Valid s) (h : memP s p) : memP (insertGo r s) p := by
  induction s with
  | nil => simp at h
  | cons current rest ih =>
    have hcur : current.1 < current.2 := hs.2 current (by simp)
    rw [insertGo]
    split_ifs with h1 h2 h3 h4
    · exact memP_cons.mpr (Or.inr h)
    · rcases memP_cons.mp h with hc | hrest
      · exact memP_cons.mpr (Or.inl (by dsimp only; omega))
      · exact memP_cons.mpr (Or.inr hrest)
    · exact h
    · apply coalesce_memP
      · intro y hy
        have := valid_head_le hs y hy
        dsimp only
        omega
      · rcases memP_cons.mp h with hc | hrest
        · exact memP_cons.mpr (Or.inl (by dsimp only; omega))
        · exact memP_cons.mpr (Or.inr hrest)
    · rcases memP_cons.mp h with hc | hrest
      · exact memP_cons.mpr (Or.inl hc)
      · exact memP_cons.mpr (Or.inr (ih (valid_tail hs) hrest))

/-! ## The duplicated `insert_num` code path -/

theorem coalesceNum_eq {c : RustRange} {l : List RustRange} :
    coalesceNum c l = coalesce c l := by
  induction l generalizing c with
  | nil => rw [coalesceNum, coalesce]
  | cons next t ih =>
    rw [coalesceNum, coalesce]
    split_ifs with h
    · exact ih
    · rfl

theorem insertNumGo_eq {r : RustRange} {s : List RustRange} :
    insertNumGo r s = insertGo r s := by
  induction s with
  | nil => rw [insertNumGo, insertGo]
  | cons current rest ih =>
    rw [insertNumGo, insertGo]
    split_ifs with h1 h2 h3 h4
    · rfl
    · rfl
    · rfl
    · exact coalesceNum_eq
    · rw [ih]

theorem insert_num_eq_insert (s : List RustRange) (a b : Nat) :
    insert_num s a b = insert s (a, b) := by
  rw [insert_num, insert]
  dsimp only
  split_ifs with h
  · exact insertNumGo_eq
  · rfl

/-! ## Preservation across whole operations and reachability -/

theorem insert_valid {s : List RustRange} {r : RustRange} (hs : Valid s) :
    Valid (insert s r) := by
  rw [insert]
  split_ifs with h
  · exact insertGo_valid h hs
  · exact hs

theorem insert_strictValid {s : List RustRange} {r : RustRange}
    (hs : StrictValid s) : StrictValid (insert s r) := by
  rw [insert]
  split_ifs with h
  · exact insertGo_strictValid h hs
  · exact hs

theorem remove_valid {s : List RustRange} {r : RustRange} (hs : Valid s) :
    Valid (remove s r) := by
  rw [remove]
  split_ifs with h
  · exact removeGo_valid h hs
  · exact hs

theorem remove_strictValid {s : List RustRange} {r : RustRange}
    (hs : StrictValid s) : StrictValid (remove s r) := by
  rw [remove]
  split_ifs with h
  · exact removeGo_strictValid h hs
  · exact hs

theorem applyOp_strictValid {s : List RustRange} (op : Op)
    (hs : StrictValid s) : StrictValid (applyOp s op) := by
  cases op with
  | ins r => exact insert_strictValid hs
  | insNum a b =>
    show StrictValid (insert_num s a b)
    rw [insert_num_eq_insert]
    exact insert_strictValid hs
  | rem r => exact remove_strictValid hs

theorem foldl_strictValid (ops : List Op) {s : List RustRange}
    (hs : StrictValid s) : StrictValid (List.foldl applyOp s ops) := by
  induction ops generalizing s with
  | nil => exact hs
  | cons op t ih => exact ih (applyOp_strictValid op hs)

/-- Every stored-interval sequence reachable from the empty `RangeSet`
satisfies the strict invariants. -/
theorem run_strictValid (ops : List Op) : StrictValid (run ops) :=
  foldl_strictValid ops ⟨List.chain'_nil, by simp⟩

theorem strictValid_sorted_lt {s : List RustRange} (h : StrictValid s) :
    List.Pairwise (fun a b : RustRange => a.1 < b.1) s := by
  induction s with
  | nil => simp
  | cons a l ih =>
    refine List.pairwise_cons.mpr ⟨fun x hx => ?_, ih (strictValid_tail h)⟩
    have ha := h.2 a (by simp)
    have := strictValid_head_lt h x hx
    omega

/-! ## The claims -/

/-- C1: the claim says that after `insert(range)` every point of
`[range.start, range.end)` is contained.  The code violates this: on the
reachable, invariant-satisfying set `{[2,3)}` (built by `insert(2,3)` from
the empty set), `insert(1,5)` takes the `current.start > range.start`
branch, which only extends `current` leftward to `{[1,3)}` and returns,
dropping the part `[3,5)` of the inserted range: the point `4` lies in
`[1,5)` but is not contained afterwards. -/
theorem C1_insert_drops_coverage :
    insert (insert [] (2, 3)) (1, 5) = [(1, 3)] ∧
    contains (insert (insert [] (2, 3)) (1, 5)) 4 = false ∧
    ((1:Nat) ≤ 4 ∧ (4:Nat) < 5) := by
  refine ⟨by decide, by decide, by decide⟩

/-- C2: on a `RangeSet` satisfying the sorted/disjoint invariants,
`remove(range)` with `range.start < range.end` removes exactly the points
of `[range.start, range.end)` from the coverage; in particular removing
`[2,6)` from `{[0,10)}` stores exactly `[0,2)` and `[6,10)`. -/
theorem C2_remove_membership (s : List RustRange) (r : RustRange)
    (hs : Valid s) (hr : r.1 < r.2) :
    (∀ p : Nat, contains (remove s r) p = true ↔
      (contains s p = true ∧ ¬(r.1 ≤ p ∧ p < r.2))) ∧
    remove [(0, 10)] (2, 6) = [(0, 2), (6, 10)] := by
  constructor
  · intro p
    have hval : Valid (remove s r) := remove_valid hs
    rw [contains_iff_memP_of_valid hval, contains_iff_memP_of_valid hs]
    have he : remove s r = removeGo r s := by rw [remove, if_pos hr]
    rw [he]
    exact removeGo_memP hr hs p
  · decide

/-- Witness for C2 at `s = {[0,10)}`, `r = [2,6)`, `p = 3`. -/
theorem C2_remove_membership_witness :
    Valid [((0:Nat), (10:Nat))] ∧ (2:Nat) < 6 ∧
    (contains (remove [(0, 10)] (2, 6)) 3 = true ↔
      (contains [((0:Nat), (10:Nat))] 3 = true ∧ ¬((2:Nat) ≤ 3 ∧ (3:Nat) < 6))) :=
  ⟨⟨by simp, by decide⟩, by decide,
    (C2_remove_membership [(0, 10)] (2, 6) ⟨by simp, by decide⟩ (by decide)).1 3⟩

/-- C3: after any finite sequence of `insert`, `insert_num` and `remove`
calls on a newly constructed `RangeSet`, the stored intervals are sorted
strictly ascending by `start`, consecutive intervals satisfy
`end ≤ next.start`, and no stored interval is empty. -/
theorem C3_invariant_preservation (ops : List Op) :
    List.Pairwise (fun a b : RustRange => a.1 < b.1) (run ops) ∧
    List.Chain' (fun a b : RustRange => a.2 ≤ b.1) (run ops) ∧
    ∀ x ∈ run ops, x.1 < x.2 :=
  ⟨strictValid_sorted_lt (run_strictValid ops),
    (strictValid_valid (run_strictValid ops)).1, (run_strictValid ops).2⟩

/-- C4: for every starting `RangeSet` and all bounds, `insert_num(a, b)`
produces exactly the same stored interval sequence as `insert(a..b)` — the
two duplicated entry points are behaviorally equivalent. -/
theorem C4_entry_point_equivalence (s : List RustRange) (a b : Nat) :
    insert_num s a b = insert s (a, b) :=
  insert_num_eq_insert s a b

/-- C5: on a sequence sorted ascending by `start` and pairwise disjoint,
`contains(p)` is true iff some stored interval satisfies
`start ≤ p < end`, and the early-exit scan agrees with scanning all
intervals. -/
theorem C5_contains_correct (s : List RustRange) (p : Nat)
    (hsort : List.Pairwise (fun a b : RustRange => a.1 ≤ b.1) s)
    (hdisj : List.Chain' (fun a b : RustRange => a.2 ≤ b.1) s) :
    (contains s p = true ↔ ∃ x ∈ s, x.1 ≤ p ∧ p < x.2) ∧
    contains s p = s.any (fun x => decide (x.1 ≤ p ∧ p < x.2)) := by
  refine ⟨contains_iff_memP hsort, ?_⟩
  rw [Bool.eq_iff_iff, List.any_eq_true]
  simp only [decide_eq_true_eq]
  exact contains_iff_memP hsort

/-- Witness for C5 at `s = {[1,3), [5,8)}`, `p = 6`. -/
theorem C5_contains_correct_witness :
    List.Pairwise (fun a b : RustRange => a.1 ≤ b.1) [((1:Nat), (3:Nat)), (5, 8)] ∧
    List.Chain' (fun a b : RustRange => a.2 ≤ b.1) [((1:Nat), (3:Nat)), (5, 8)] ∧
    ((contains [((1:Nat), (3:Nat)), (5, 8)] 6 = true ↔
        ∃ x ∈ [((1:Nat), (3:Nat)), (5, 8)], x.1 ≤ 6 ∧ 6 < x.2) ∧
      contains [((1:Nat), (3:Nat)), (5, 8)] 6 =
        List.any [((1:Nat), (3:Nat)), (5, 8)] (fun x => decide (x.1 ≤ 6 ∧ 6 < x.2))) :=
  ⟨by simp, by simp, C5_contains_correct [(1, 3), (5, 8)] 6 (by simp) (by simp)⟩

/-- C6: from the empty set, `insert(1,5); insert(5,8)` yields exactly
`{[1,8)}`, and `insert(1,3); insert(5,8); insert(3,5)` also yields exactly
`{[1,8)}`: insertion eagerly coalesces touching and bridged intervals. -/
theorem C6_merge_on_touch_and_bridge :
    insert (insert [] (1, 5)) (5, 8) = [(1, 8)] ∧
    insert (insert (insert [] (1, 3)) (5, 8)) (3, 5) = [(1, 8)] :=
  ⟨by decide, by decide⟩

/-- C7: for every `RangeSet` and bounds with `start ≥ end`, `insert`,
`insert_num` and `remove` are no-ops: stored sequence, `len()` and
`contains` are unchanged. -/
theorem C7_degenerate_noop (s : List RustRange) (r : RustRange)
    (h : r.2 ≤ r.1) :
    insert s r = s ∧ insert_num s r.1 r.2 = s ∧ remove s r = s ∧
    len (insert s r) = len s ∧ len (remove s r) = len s ∧
    (∀ p, contains (insert s r) p = contains s p) ∧
    (∀ p, contains (remove s r) p = contains s p) := by
  have hi : insert s r = s := by rw [insert, if_neg (by omega)]
  have hn : insert_num s r.1 r.2 = s := by rw [insert_num, if_neg (by omega)]
  have hrm : remove s r = s := by rw [remove, if_neg (by omega)]
  exact ⟨hi, hn, hrm, by rw [hi], by rw [hrm],
    fun p => by rw [hi], fun p => by rw [hrm]⟩

/-- Witness for C7 at `s = {[0,1)}`, `r = [5,5)`. -/
theorem C7_degenerate_noop_witness :
    ((5:Nat), (5:Nat)).2 ≤ ((5:Nat), (5:Nat)).1 ∧
    insert [((0:Nat), (1:Nat))] (5, 5) = [(0, 1)] :=
  ⟨by decide, (C7_degenerate_noop [(0, 1)] (5, 5) (by decide)).1⟩

/-- C8: every `RangeSet` reachable from the empty set has strictly
separated consecutive intervals: `end < next.start` for every adjacent
pair. -/
theorem C8_strict_separation (ops : List Op) :
    List.Chain' (fun a b : RustRange => a.2 < b.1) (run ops) :=
  (run_strictValid ops).1

/-- C9: insertion is monotone in coverage: on a `RangeSet` satisfying the
sorted/disjoint invariants, any point contained before an `insert` (or
`insert_num`) call is still contained after it. -/
theorem C9_insert_monotone (s : List RustRange) (r : RustRange) (p : Nat)
    (hs : Valid s) (h : contains s p = true) :
    contains (insert s r) p = true ∧
    contains (insert_num s r.1 r.2) p = true := by
  have hmem : memP s p := (contains_iff_memP_of_valid hs).mp h
  have hmono : memP (insert s r) p := by
    rw [insert]
    split_ifs with hrange
    · exact insertGo_memP_mono hs hmem
    · exact hmem
  have hv : Valid (insert s r) := insert_valid hs
  have h1 : contains (insert s r) p = true :=
    (contains_iff_memP_of_valid hv).mpr hmono
  refine ⟨h1, ?_⟩
  rw [insert_num_eq_insert s r.1 r.2, Prod.mk.eta]
  exact h1

/-- Witness for C9 at `s = {[1,3)}`, `r = [5,8)`, `p = 2`. -/
theorem C9_insert_monotone_witness :
    Valid [((1:Nat), (3:Nat))] ∧ contains [((1:Nat), (3:Nat))] 2 = true ∧
    (contains (insert [((1:Nat), (3:Nat))] (5, 8)) 2 = true ∧
      contains (insert_num [((1:Nat), (3:Nat))] 5 8) 2 = true) :=
  ⟨⟨by simp, by decide⟩, by decide,
    C9_insert_monotone [(1, 3)] (5, 8) 2 ⟨by simp, by decide⟩ (by decide)⟩

/-- C10: `shrink_to_fit` is a pure storage-footprint operation: the stored
interval sequence, `len()`, `empty()` and `contains(p)` for every point are
identical before and after the call. -/
theorem C10_shrink_to_fit_frame (v : Storage) :
    (shrink_to_fit v).data = v.data ∧
    len (shrink_to_fit v).data = len v.data ∧
    empty (shrink_to_fit v).data = empty v.data ∧
    ∀ p, contains (shrink_to_fit v).data p = contains v.data p := by
  have hd : (shrink_to_fit v).data = v.data := by
    rw [shrink_to_fit]
    split_ifs <;> rfl
  exact ⟨hd, by rw [hd], by rw [hd], fun p => by rw [hd]⟩

end RangeSet
